import Mathlib

/-!
Verification of the Ranking & Tiering Engine of the ride-share analytics
dashboard (`analytics_dashboard.py` / `08_analytics_dashboard.py`).

The repository's Python code issues SQL queries whose window functions
(RANK, DENSE_RANK, PERCENT_RANK, NTILE, LEAD) are evaluated by the external
PostgreSQL engine; only the query text and the pandas/plotting code are in
the repository.  Following the specification's design notes, the window
functions are modelled here from the spec's explicit definitions, while the
classification CASE expressions, the churn-risk query's row logic, and the
data-frame effects of the plotting code are embedded directly from the
source text.
-/

namespace RideShare

/-! ## Classifier (spec section 4.4, embedded from the CASE expressions) -/

/-- A classification rule: a predicate over the candidate value paired with
the category label returned when the predicate fires. -/
abbrev ClassRule (α : Type) : Type := (α → Bool) × String

/-- The Classifier: evaluate the ordered rule list top-to-bottom and return
the label of the first rule whose predicate is true, or the default label
when none is.  This is the cascading-conditional shape of the SQL
`CASE WHEN ... THEN ... ELSE ... END` expressions in the source. -/
def classify {α : Type} (rules : List (ClassRule α)) (dflt : String) (x : α) : String :=
  match rules with
  | [] => dflt
  | (p, lab) :: rest => if p x then lab else classify rest dflt x

/-- The label of the first matching rule, phrased via `List.find?`; this is
the specification's reading of the Classifier contract. -/
def firstMatchLabel {α : Type} (rules : List (ClassRule α)) (dflt : String) (x : α) : String :=
  ((rules.find? (fun r => r.1 x)).map Prod.snd).getD dflt

/-- Rule list of the `performance_tier` CASE expression in
`get_revenue_tier_ranks` (src/analytics_dashboard.py lines 435-439). -/
def performance_tier_rules : List (ClassRule ℕ) :=
  [(fun revenue_rank => revenue_rank ≤ 10, "Top Tier (Rank <=10)"),
   (fun revenue_rank => revenue_rank ≤ 30, "Mid Tier (Rank 11-30)")]

/-- The `performance_tier` column computed by `get_revenue_tier_ranks`. -/
def performance_tier (revenue_rank : ℕ) : String :=
  classify performance_tier_rules "Growth Tier (Rank >30)" revenue_rank

theorem classify_eq_firstMatchLabel {α : Type} (rules : List (ClassRule α))
    (dflt : String) (x : α) :
    classify rules dflt x = firstMatchLabel rules dflt x := by
  induction rules with
  | nil => rfl
  | cons r rest ih =>
      obtain ⟨p, lab⟩ := r
      by_cases hp : p x
      · simp [classify, firstMatchLabel, List.find?, hp]
      · simp only [Bool.not_eq_true] at hp
        simp [classify, firstMatchLabel, List.find?, hp, ih]

theorem classify_first_true {α : Type} (pre post : List (ClassRule α))
    (p : α → Bool) (lab : String) (dflt : String) (x : α)
    (hpre : ∀ r ∈ pre, r.1 x = false) (hp : p x = true) :
    classify (pre ++ (p, lab) :: post) dflt x = lab := by
  induction pre with
  | nil => simp [classify, hp]
  | cons r rest ih =>
      obtain ⟨q, lq⟩ := r
      have hq : q x = false := hpre (q, lq) (by simp)
      simp only [List.cons_append, classify, hq, if_false, Bool.false_eq_true]
      exact ih (fun r hr => hpre r (by simp [hr]))

theorem classify_none_true {α : Type} (rules : List (ClassRule α))
    (dflt : String) (x : α) (h : ∀ r ∈ rules, r.1 x = false) :
    classify rules dflt x = dflt := by
  induction rules with
  | nil => rfl
  | cons r rest ih =>
      obtain ⟨q, lq⟩ := r
      have hq : q x = false := h (q, lq) (by simp)
      simp only [classify, hq, Bool.false_eq_true, if_false]
      exact ih (fun r hr => h r (by simp [hr]))

/-! ## Window functions (modelled from the spec; the source delegates them
to the external SQL engine inside query text) -/

/-- Modelled from the spec: competition rank (SQL `RANK()`, invoked but not
defined in the repository's query text).  Over a partition whose order keys,
listed in sort order, are `ks`, the record at 0-based position `i` receives
rank 1 at the top; a record whose key equals its predecessor's keeps the
predecessor's rank, and a record with a new distinct key receives
(count of records so far) + 1, i.e. `i + 2` at position `i + 1`. -/
def competitionRank (ks : List ℤ) : ℕ → ℕ
  | 0 => 1
  | i + 1 => if ks.getD (i + 1) 0 = ks.getD i 0 then competitionRank ks i else i + 2

/-- Modelled from the spec: dense rank (SQL `DENSE_RANK()`, invoked but not
defined in the repository's query text).  Tied records keep the previous
rank; the next distinct key's rank is exactly one more than the previous
distinct rank. -/
def denseRank (ks : List ℤ) : ℕ → ℕ
  | 0 => 1
  | i + 1 => if ks.getD (i + 1) 0 = ks.getD i 0 then denseRank ks i else denseRank ks i + 1

theorem competitionRank_pos (ks : List ℤ) (i : ℕ) : 1 ≤ competitionRank ks i := by
  induction i with
  | zero => simp [competitionRank]
  | succ n ih =>
      rw [competitionRank]
      split
      · exact ih
      · omega

theorem competitionRank_le (ks : List ℤ) (i : ℕ) : competitionRank ks i ≤ i + 1 := by
  induction i with
  | zero => simp [competitionRank]
  | succ n ih =>
      rw [competitionRank]
      split
      · omega
      · omega

theorem competitionRank_mono_step (ks : List ℤ) (i : ℕ) :
    competitionRank ks i ≤ competitionRank ks (i + 1) := by
  rw [competitionRank]
  split
  · exact le_refl _
  · have := competitionRank_le ks i
    omega

theorem denseRank_step_le (ks : List ℤ) (i : ℕ) :
    denseRank ks (i + 1) ≤ denseRank ks i + 1 := by
  rw [denseRank]
  split <;> omega

theorem denseRank_mono_step (ks : List ℤ) (i : ℕ) :
    denseRank ks i ≤ denseRank ks (i + 1) := by
  rw [denseRank]
  split <;> omega

/-- In a list sorted descending, any entry sandwiched between two equal
entries equals them. -/
theorem sorted_sandwich (ks : List ℤ) (h : ks.Sorted (· ≥ ·))
    (i k j : ℕ) (hik : i ≤ k) (hkj : k ≤ j) (hj : j < ks.length)
    (heq : ks.getD i 0 = ks.getD j 0) : ks.getD k 0 = ks.getD i 0 := by
  have hk : k < ks.length := lt_of_le_of_lt (le_trans hkj (le_refl j)) hj
  have hi : i < ks.length := lt_of_le_of_lt (le_trans hik hkj) hj
  rw [List.getD_eq_getElem ks 0 hi, List.getD_eq_getElem ks 0 hk]
  rw [List.getD_eq_getElem ks 0 hi, List.getD_eq_getElem ks 0 hj] at heq
  have h1 : ks[i] ≥ ks[k] := by
    rcases Nat.lt_or_ge i k with hlt | hge
    · exact List.pairwise_iff_get.mp h ⟨i, hi⟩ ⟨k, hk⟩ hlt
    · have : i = k := le_antisymm hik hge
      simp [this]
  have h2 : ks[k] ≥ ks[j] := by
    rcases Nat.lt_or_ge k j with hlt | hge
    · exact List.pairwise_iff_get.mp h ⟨k, hk⟩ ⟨j, hj⟩ hlt
    · have : k = j := le_antisymm hkj hge
      simp [this]
  omega

theorem competitionRank_eq_of_adj (ks : List ℤ) (i : ℕ)
    (h : ks.getD (i + 1) 0 = ks.getD i 0) :
    competitionRank ks (i + 1) = competitionRank ks i := by
  rw [competitionRank, if_pos h]

/-- In a sorted partition, records with equal order keys receive the same
competition rank. -/
theorem competitionRank_eq_of_tie (ks : List ℤ) (h : ks.Sorted (· ≥ ·))
    (i j : ℕ) (hij : i ≤ j) (hj : j < ks.length)
    (heq : ks.getD i 0 = ks.getD j 0) :
    competitionRank ks i = competitionRank ks j := by
  induction j with
  | zero =>
      have : i = 0 := Nat.le_zero.mp hij
      simp [this]
  | succ n ih =>
      rcases Nat.lt_or_ge i (n + 1) with hlt | hge
      · have hin : i ≤ n := Nat.lt_succ_iff.mp hlt
        have hkn : ks.getD n 0 = ks.getD i 0 :=
          sorted_sandwich ks h i n (n + 1) hin (Nat.le_succ n) hj heq
        have hadj : ks.getD (n + 1) 0 = ks.getD n 0 := by
          rw [hkn, heq]
        rw [competitionRank_eq_of_adj ks n hadj]
        exact ih hin (lt_trans (Nat.lt_succ_self n) hj) hkn.symm
      · have : i = n + 1 := le_antisymm hij hge
        simp [this]

/-- A record whose key differs from its predecessor's (or the top record)
opens a new rank group: its competition rank is its 1-based position. -/
theorem competitionRank_group_start (ks : List ℤ) (j : ℕ)
    (h : j = 0 ∨ ks.getD j 0 ≠ ks.getD (j - 1) 0) :
    competitionRank ks j = j + 1 := by
  rcases h with h0 | hne
  · simp [h0, competitionRank]
  · cases j with
    | zero => simp [competitionRank]
    | succ n =>
        simp only [Nat.add_sub_cancel] at hne
        rw [competitionRank, if_neg hne]

theorem denseRank_eq_of_adj (ks : List ℤ) (i : ℕ)
    (h : ks.getD (i + 1) 0 = ks.getD i 0) :
    denseRank ks (i + 1) = denseRank ks i := by
  rw [denseRank, if_pos h]

/-- In a sorted partition, records with equal order keys receive the same
dense rank. -/
theorem denseRank_eq_of_tie (ks : List ℤ) (h : ks.Sorted (· ≥ ·))
    (i j : ℕ) (hij : i ≤ j) (hj : j < ks.length)
    (heq : ks.getD i 0 = ks.getD j 0) :
    denseRank ks i = denseRank ks j := by
  induction j with
  | zero =>
      have : i = 0 := Nat.le_zero.mp hij
      simp [this]
  | succ n ih =>
      rcases Nat.lt_or_ge i (n + 1) with hlt | hge
      · have hin : i ≤ n := Nat.lt_succ_iff.mp hlt
        have hkn : ks.getD n 0 = ks.getD i 0 :=
          sorted_sandwich ks h i n (n + 1) hin (Nat.le_succ n) hj heq
        have hadj : ks.getD (n + 1) 0 = ks.getD n 0 := by
          rw [hkn, heq]
        rw [denseRank_eq_of_adj ks n hadj]
        exact ih hin (lt_trans (Nat.lt_succ_self n) hj) hkn.symm
      · have : i = n + 1 := le_antisymm hij hge
        simp [this]

theorem denseRank_succ_of_ne (ks : List ℤ) (i : ℕ)
    (h : ks.getD (i + 1) 0 ≠ ks.getD i 0) :
    denseRank ks (i + 1) = denseRank ks i + 1 := by
  rw [denseRank, if_neg h]

/-- C1: the Classifier evaluates the ordered rule list top-to-bottom and
returns the label of the first predicate that is true, or the default label
when none is; for the revenue-tier rules, rank 10 is labeled Top Tier,
rank 11 Mid Tier, rank 31 the default Growth Tier, and with overlapping
predicate ranges the earlier rule always wins. -/
theorem classifier_first_match_wins :
    (∀ (α : Type) (rules : List (ClassRule α)) (dflt : String) (x : α),
      classify rules dflt x = firstMatchLabel rules dflt x) ∧
    (∀ (α : Type) (pre post : List (ClassRule α)) (p : α → Bool) (lab dflt : String)
      (x : α), (∀ r ∈ pre, r.1 x = false) → p x = true →
      classify (pre ++ (p, lab) :: post) dflt x = lab) ∧
    (∀ (α : Type) (rules : List (ClassRule α)) (dflt : String) (x : α),
      (∀ r ∈ rules, r.1 x = false) → classify rules dflt x = dflt) ∧
    performance_tier 10 = "Top Tier (Rank <=10)" ∧
    performance_tier 11 = "Mid Tier (Rank 11-30)" ∧
    performance_tier 31 = "Growth Tier (Rank >30)" ∧
    classify [(fun q => q ≤ (1 : ℚ) / 2, "A"), (fun q => q ≤ (1 : ℚ) / 5, "B")]
      "C" ((1 : ℚ) / 10) = "A" := by
  refine ⟨fun α rules dflt x => classify_eq_firstMatchLabel rules dflt x,
          fun α pre post p lab dflt x h hp => classify_first_true pre post p lab dflt x h hp,
          fun α rules dflt x h => classify_none_true rules dflt x h,
          by decide, by decide, by decide, by norm_num [classify]⟩

theorem classifier_first_match_wins_witness :
    classify ([((fun revenue_rank => revenue_rank ≤ 10 : ℕ → Bool), "Top Tier (Rank <=10)")] ++
        ((fun revenue_rank => revenue_rank ≤ 30 : ℕ → Bool), "Mid Tier (Rank 11-30)") :: [])
      "Growth Tier (Rank >30)" 11 = "Mid Tier (Rank 11-30)" :=
  classifier_first_match_wins.2.1 ℕ
    [((fun revenue_rank => revenue_rank ≤ 10 : ℕ → Bool), "Top Tier (Rank <=10)")] []
    (fun revenue_rank => revenue_rank ≤ 30) "Mid Tier (Rank 11-30)" "Growth Tier (Rank >30)"
    11 (by intro r hr; simp at hr; rw [hr]; decide) (by decide)

/-- C2 (counterexample): the partition with fares 10, 10, 30 ordered
descending by fare is the list [30, 10, 10], and its competition ranks are
[1, 2, 2], not [1, 1, 3] as the claim states. -/
theorem competitionRank_desc_scenario_counterexample :
    List.Sorted (fun a b : ℤ => a ≥ b) [(30 : ℤ), 10, 10] ∧
    List.Perm [(30 : ℤ), 10, 10] [(10 : ℤ), 10, 30] ∧
    (List.range 3).map (competitionRank [(30 : ℤ), 10, 10]) = [1, 2, 2] ∧
    (List.range 3).map (competitionRank [(30 : ℤ), 10, 10]) ≠ [1, 1, 3] := by
  refine ⟨by decide, by decide, by decide, by decide⟩

/-- C2 (amended): in every partition ordered by the order key, competition
rank gives equal-order-key records the same rank, is non-decreasing, assigns
a record distinct from all its predecessors rank (count of records preceding
it) + 1, and jumps by g after a tie-group of size g; and the partition with
fares 10, 10, 30 ordered ascending by fare has competition ranks [1, 1, 3]. -/
theorem competitionRank_spec (ks : List ℤ) (h : ks.Sorted (· ≥ ·)) :
    (∀ i j, i ≤ j → j < ks.length → ks.getD i 0 = ks.getD j 0 →
      competitionRank ks i = competitionRank ks j) ∧
    (∀ i, competitionRank ks i ≤ competitionRank ks (i + 1)) ∧
    (∀ j, (∀ m, m < j → ks.getD m 0 ≠ ks.getD j 0) → competitionRank ks j = j + 1) ∧
    (∀ j g, 1 ≤ g → (j = 0 ∨ ks.getD j 0 ≠ ks.getD (j - 1) 0) →
      ks.getD (j + g) 0 ≠ ks.getD (j + g - 1) 0 →
      competitionRank ks (j + g) = competitionRank ks j + g) ∧
    (List.range 3).map (competitionRank [(10 : ℤ), 10, 30]) = [1, 1, 3] := by
  refine ⟨fun i j hij hj heq => competitionRank_eq_of_tie ks h i j hij hj heq,
          competitionRank_mono_step ks,
          ?_, ?_, by decide⟩
  · intro j hdist
    apply competitionRank_group_start
    cases j with
    | zero => exact Or.inl rfl
    | succ n =>
        refine Or.inr ?_
        have := hdist n (Nat.lt_succ_self n)
        simpa [eq_comm] using this
  · intro j g hg hstart hne
    have hjg : competitionRank ks (j + g) = j + g + 1 := by
      apply competitionRank_group_start
      exact Or.inr hne
    have hj : competitionRank ks j = j + 1 := competitionRank_group_start ks j hstart
    omega

theorem competitionRank_spec_witness :
    (List.range 3).map (competitionRank [(10 : ℤ), 10, 30]) = [1, 1, 3] :=
  (competitionRank_spec [(30 : ℤ), 10, 10] (by decide)).2.2.2.2

/-- C3: in every partition ordered by the order key, dense rank gives
equal-order-key records the same rank, is non-decreasing, increases by
exactly one at each new distinct key (so the rank sequence has no gaps),
and two tied records followed by a distinct one receive ranks [1, 1, 2]. -/
theorem denseRank_spec (ks : List ℤ) (h : ks.Sorted (· ≥ ·)) :
    (∀ i j, i ≤ j → j < ks.length → ks.getD i 0 = ks.getD j 0 →
      denseRank ks i = denseRank ks j) ∧
    (∀ i, denseRank ks i ≤ denseRank ks (i + 1)) ∧
    (∀ i, ks.getD (i + 1) 0 ≠ ks.getD i 0 → denseRank ks (i + 1) = denseRank ks i + 1) ∧
    (∀ i, denseRank ks (i + 1) ≤ denseRank ks i + 1) ∧
    (∀ a b : ℤ, a ≠ b → (List.range 3).map (denseRank [a, a, b]) = [1, 1, 2]) := by
  refine ⟨fun i j hij hj heq => denseRank_eq_of_tie ks h i j hij hj heq,
          denseRank_mono_step ks,
          fun i hne => denseRank_succ_of_ne ks i hne,
          denseRank_step_le ks, ?_⟩
  intro a b hab
  have h1 : denseRank [a, a, b] 1 = denseRank [a, a, b] 0 := by
    apply denseRank_eq_of_adj
    simp
  have h2 : denseRank [a, a, b] 2 = denseRank [a, a, b] 1 + 1 := by
    apply denseRank_succ_of_ne
    simpa using hab.symm
  have h0 : denseRank [a, a, b] 0 = 1 := rfl
  simp [List.range_succ, h0, h1, h2]

theorem denseRank_spec_witness :
    (List.range 3).map (denseRank [(10 : ℤ), 10, 30]) = [1, 1, 2] :=
  (denseRank_spec [(30 : ℤ), 10, 10] (by decide)).2.2.2.2 10 30 (by decide)

/-- Modelled from the spec: percentile rank (SQL `PERCENT_RANK()`, invoked
but not defined in the repository's query text, used in
`get_commission_percentiles`): `(competition_rank - 1) / (partition_size - 1)`
when the partition has more than one record, else 0. -/
def percentileRank (ks : List ℤ) (i : ℕ) : ℚ :=
  if ks.length ≤ 1 then 0
  else ((competitionRank ks i : ℚ) - 1) / ((ks.length : ℚ) - 1)

/-- C4 (counterexample): in the descending-sorted partition [30, 10, 10]
(size 3 > 1) the worst-ordered record, at position 2, has percentile rank
1/2, not 1.0 as the claim states: the bottom two records tie, so the worst
record's competition rank is 2, and (2 - 1) / (3 - 1) = 1/2. -/
theorem percentileRank_worst_counterexample :
    List.Sorted (fun a b : ℤ => a ≥ b) [(30 : ℤ), 10, 10] ∧
    1 < ([(30 : ℤ), 10, 10] : List ℤ).length ∧
    percentileRank [(30 : ℤ), 10, 10] 2 = 1 / 2 ∧
    ((1 : ℚ) / 2) ≠ 1 := by
  have hr : competitionRank [(30 : ℤ), 10, 10] 2 = 2 := by decide
  refine ⟨by decide, by decide, ?_, by norm_num⟩
  rw [percentileRank, if_neg (by decide), hr]
  norm_num

/-- C4 (amended): percentile rank equals
(competition_rank - 1) / (partition_size - 1) when the partition size
exceeds 1 and is 0 for a singleton partition; it always lies in [0, 1]; the
best-ordered record of any partition of size > 1 has percentile rank exactly
0.0; and the worst-ordered record has percentile rank exactly 1.0 provided
it is not tied with the record just before it (a tied bottom group stays
below 1.0). -/
theorem percentileRank_spec (ks : List ℤ) :
    (1 < ks.length → ∀ i, percentileRank ks i =
      ((competitionRank ks i : ℚ) - 1) / ((ks.length : ℚ) - 1)) ∧
    (ks.length = 1 → ∀ i, percentileRank ks i = 0) ∧
    (∀ i, i < ks.length → 0 ≤ percentileRank ks i ∧ percentileRank ks i ≤ 1) ∧
    (1 < ks.length → percentileRank ks 0 = 0) ∧
    (1 < ks.length → ks.getD (ks.length - 1) 0 ≠ ks.getD (ks.length - 2) 0 →
      percentileRank ks (ks.length - 1) = 1) := by
  refine ⟨?_, ?_, ?_, ?_, ?_⟩
  · intro hlen i
    rw [percentileRank, if_neg (by omega)]
  · intro hlen i
    rw [percentileRank, if_pos (by omega)]
  · intro i hi
    by_cases hlen : ks.length ≤ 1
    · rw [percentileRank, if_pos hlen]
      norm_num
    · rw [percentileRank, if_neg hlen]
      push_neg at hlen
      have hpos : (0 : ℚ) < (ks.length : ℚ) - 1 := by
        have : (2 : ℚ) ≤ (ks.length : ℚ) := by exact_mod_cast hlen
        linarith
      have h1 : 1 ≤ competitionRank ks i := competitionRank_pos ks i
      have h1q : (1 : ℚ) ≤ (competitionRank ks i : ℚ) := by exact_mod_cast h1
      constructor
      · apply div_nonneg (by linarith) (le_of_lt hpos)
      · rw [div_le_one hpos]
        have h2 : competitionRank ks i ≤ i + 1 := competitionRank_le ks i
        have h3 : competitionRank ks i ≤ ks.length := by omega
        have h3q : (competitionRank ks i : ℚ) ≤ (ks.length : ℚ) := by exact_mod_cast h3
        linarith
  · intro hlen
    rw [percentileRank, if_neg (by omega)]
    have h0 : competitionRank ks 0 = 1 := rfl
    rw [h0]
    norm_num
  · intro hlen hne
    rw [percentileRank, if_neg (by omega)]
    have hstart : competitionRank ks (ks.length - 1) = (ks.length - 1) + 1 := by
      apply competitionRank_group_start
      refine Or.inr ?_
      have : ks.length - 1 - 1 = ks.length - 2 := by omega
      rw [this]
      exact hne
    rw [hstart]
    have hlen1 : (ks.length - 1) + 1 = ks.length := by omega
    rw [hlen1]
    have : (0 : ℚ) < (ks.length : ℚ) - 1 := by
      have : (2 : ℚ) ≤ (ks.length : ℚ) := by exact_mod_cast hlen
      linarith
    field_simp

/-! ## Quantile buckets (NTILE) -/

/-- Modelled from the spec: the size of quantile bucket `b` (1-based) when a
partition of size `S` is split into `N` buckets (SQL `NTILE(N)`, invoked but
not defined in the repository's query text, used in
`get_customer_value_segments`): the first `S mod N` buckets receive
`S / N + 1` members, the rest `S / N`. -/
def ntileBucketSize (S N b : ℕ) : ℕ :=
  if b ≤ S % N then S / N + 1 else S / N

/-- Modelled from the spec: the bucket assignment sequence: members, taken
in the partition's current order, are assigned to buckets 1..N, filling each
bucket to its computed capacity before moving to the next. -/
def ntileBuckets (S N : ℕ) : List ℕ :=
  ((List.range N).map (fun b => List.replicate (ntileBucketSize S N (b + 1)) (b + 1))).flatten

theorem sum_map_range_single (g : ℕ → ℕ) (n k : ℕ) (hk : k < n)
    (h0 : ∀ b, b < n → b ≠ k → g b = 0) : ((List.range n).map g).sum = g k := by
  induction n with
  | zero => omega
  | succ m ih =>
      rw [List.range_succ, List.map_append, List.sum_append]
      simp only [List.map_cons, List.map_nil, List.sum_cons, List.sum_nil]
      rcases Nat.lt_or_ge k m with hkm | hkm
      · have hgm : g m = 0 := h0 m (Nat.lt_succ_self m) (by omega)
        rw [ih hkm (fun b hb hbk => h0 b (by omega) hbk), hgm]
        omega
      · have hkm' : k = m := by omega
        subst hkm'
        have hz : ((List.range k).map g).sum = 0 := by
          apply List.sum_eq_zero
          intro x hx
          simp only [List.mem_map, List.mem_range] at hx
          obtain ⟨b, hb, rfl⟩ := hx
          exact h0 b (by omega) (by omega)
        omega

theorem ntile_sizes_sum (S N : ℕ) (hN : 0 < N) :
    ((List.range N).map (fun b => ntileBucketSize S N (b + 1))).sum = S := by
  have hrN : S % N < N := Nat.mod_lt S hN
  have hsplit : List.range N =
      List.range (S % N) ++ (List.range (N - S % N)).map (fun x => S % N + x) := by
    rw [← List.range_add]
    congr 1
    omega
  rw [hsplit, List.map_append, List.sum_append, List.map_map]
  have h1 : (List.range (S % N)).map (fun b => ntileBucketSize S N (b + 1)) =
      (List.range (S % N)).map (fun _ => S / N + 1) := by
    apply List.map_congr_left
    intro b hb
    simp only [List.mem_range] at hb
    rw [ntileBucketSize, if_pos (by omega)]
  have h2 : (List.range (N - S % N)).map
      ((fun b => ntileBucketSize S N (b + 1)) ∘ fun x => S % N + x) =
      (List.range (N - S % N)).map (fun _ => S / N) := by
    apply List.map_congr_left
    intro b hb
    simp only [Function.comp_apply]
    rw [ntileBucketSize, if_neg (by omega)]
  rw [h1, h2]
  have hs1 : ((List.range (S % N)).map (fun _ => S / N + 1)).sum = S % N * (S / N + 1) := by
    simp [List.sum_replicate, Nat.smul_one_eq_cast]
  have hs2 : ((List.range (N - S % N)).map (fun _ => S / N)).sum = (N - S % N) * (S / N) := by
    simp [List.sum_replicate, Nat.smul_one_eq_cast]
  rw [hs1, hs2]
  have hdm : N * (S / N) + S % N = S := Nat.div_add_mod S N
  have e1 : S % N * (S / N + 1) = S % N * (S / N) + S % N := by ring
  have e2 : (N - S % N) * (S / N) = N * (S / N) - S % N * (S / N) := by
    rw [Nat.sub_mul]
  have e3 : S % N * (S / N) ≤ N * (S / N) :=
    Nat.mul_le_mul_right (S / N) (le_of_lt hrN)
  set A := S % N * (S / N)
  set B := N * (S / N)
  omega

theorem ntile_count_eq (S N b : ℕ) (hb1 : 1 ≤ b) (hbN : b ≤ N) :
    (ntileBuckets S N).count b = ntileBucketSize S N b := by
  unfold ntileBuckets
  rw [List.count_flatten, List.map_map]
  have hrw : (List.range N).map
      (List.count b ∘ fun b' => List.replicate (ntileBucketSize S N (b' + 1)) (b' + 1)) =
      (List.range N).map (fun b' => if b' + 1 = b then ntileBucketSize S N (b' + 1) else 0) := by
    apply List.map_congr_left
    intro b' _
    simp only [Function.comp_apply, List.count_replicate]
    by_cases h : b' + 1 = b <;> simp [h]
  rw [hrw]
  rw [sum_map_range_single
      (fun b' => if b' + 1 = b then ntileBucketSize S N (b' + 1) else 0) N (b - 1)
      (by omega) (fun b' _ hbk => if_neg (by omega))]
  show (if (b - 1) + 1 = b then ntileBucketSize S N ((b - 1) + 1) else 0) = ntileBucketSize S N b
  rw [show (b - 1) + 1 = b from by omega]
  simp

theorem ntileBuckets_sorted (S N : ℕ) : (ntileBuckets S N).Sorted (· ≤ ·) := by
  unfold ntileBuckets
  rw [List.Sorted, List.pairwise_flatten]
  constructor
  · intro l hl
    simp only [List.mem_map] at hl
    obtain ⟨b, _, rfl⟩ := hl
    rw [List.pairwise_replicate]
    exact Or.inr (le_refl _)
  · refine List.Pairwise.map _ ?_ (List.pairwise_lt_range N)
    intro a b hab x hx y hy
    rw [List.eq_of_mem_replicate hx, List.eq_of_mem_replicate hy]
    omega

/-- C5: splitting a partition of size S into N quantile buckets gives the
first S mod N buckets floor(S/N) + 1 members and the rest floor(S/N);
members are assigned to buckets 1..N in order, filling each bucket to
capacity before the next (so the bucket sequence is non-decreasing and
covers exactly S members); bucket sizes differ by at most 1 and bucket 1 is
never smaller than bucket N; 7 members in 4 buckets give sizes [2, 2, 2, 1].
-/
theorem ntile_spec (S N : ℕ) (hN : 1 ≤ N) :
    (ntileBuckets S N).length = S ∧
    (∀ b, 1 ≤ b → b ≤ N → (ntileBuckets S N).count b = ntileBucketSize S N b) ∧
    (∀ b, 1 ≤ b → b ≤ S % N → ntileBucketSize S N b = S / N + 1) ∧
    (∀ b, S % N < b → ntileBucketSize S N b = S / N) ∧
    (ntileBuckets S N).Sorted (· ≤ ·) ∧
    (∀ b b', ntileBucketSize S N b ≤ ntileBucketSize S N b' + 1) ∧
    ntileBucketSize S N N ≤ ntileBucketSize S N 1 ∧
    (List.range 4).map (fun b => ntileBucketSize 7 4 (b + 1)) = [2, 2, 2, 1] ∧
    ntileBuckets 7 4 = [1, 1, 2, 2, 3, 3, 4] := by
  refine ⟨?_, fun b hb1 hbN => ntile_count_eq S N b hb1 hbN,
          ?_, ?_, ntileBuckets_sorted S N, ?_, ?_, by decide, by decide⟩
  · unfold ntileBuckets
    rw [List.length_flatten, List.map_map]
    have : (List.range N).map
        (List.length ∘ fun b => List.replicate (ntileBucketSize S N (b + 1)) (b + 1)) =
        (List.range N).map (fun b => ntileBucketSize S N (b + 1)) := by
      apply List.map_congr_left
      intro b _
      simp
    rw [this]
    exact ntile_sizes_sum S N hN
  · intro b _ hb
    rw [ntileBucketSize, if_pos hb]
  · intro b hb
    rw [ntileBucketSize, if_neg (by omega)]
  · intro b b'
    unfold ntileBucketSize
    split <;> split <;> omega
  · have hrN : S % N < N := Nat.mod_lt S hN
    unfold ntileBucketSize
    rw [if_neg (by omega)]
    split <;> omega

theorem ntile_spec_witness :
    (ntileBuckets 7 4).length = 7 ∧ (ntileBuckets 7 4).count 1 = 2 ∧
    (ntileBuckets 7 4).count 4 = 1 :=
  ⟨(ntile_spec 7 4 (by decide)).1,
   by rw [(ntile_spec 7 4 (by decide)).2.1 1 (by decide) (by decide)]; decide,
   by rw [(ntile_spec 7 4 (by decide)).2.1 4 (by decide) (by decide)]; decide⟩

theorem percentileRank_spec_witness :
    percentileRank [(3 : ℤ), 2, 1] 2 = 1 ∧ percentileRank [(3 : ℤ), 2, 1] 0 = 0 :=
  ⟨(percentileRank_spec [(3 : ℤ), 2, 1]).2.2.2.2 (by decide) (by decide),
   (percentileRank_spec [(3 : ℤ), 2, 1]).2.2.2.1 (by decide)⟩

/-! ## Lead (offset 1) -/

/-- Modelled from the spec: the lead (offset 1) column (SQL
`LEAD(...) OVER (PARTITION BY ... ORDER BY ...)`, invoked but not defined in
the repository's query text, used in `get_churn_risk_matrix`): each record
of an ordered partition is annotated with the designated field's value of
the immediately following record, or null for the partition's last record.
-/
def leadCol : List ℤ → List (Option ℤ)
  | [] => []
  | [_] => [none]
  | _ :: y :: t => some y :: leadCol (y :: t)

theorem leadCol_length : ∀ vs : List ℤ, (leadCol vs).length = vs.length
  | [] => rfl
  | [_] => rfl
  | _ :: y :: t => by
      simp only [leadCol, List.length_cons]
      rw [leadCol_length (y :: t)]
      simp

theorem leadCol_last : ∀ (vs : List ℤ) (i : ℕ), i + 1 = vs.length →
    (leadCol vs).getD i none = none
  | [], i, h => by simp at h
  | [_], i, h => by
      have hi : i = 0 := by simpa using h
      subst hi
      rfl
  | _ :: y :: t, i, h => by
      cases i with
      | zero => simp at h
      | succ n =>
          show (leadCol (y :: t)).getD n none = none
          exact leadCol_last (y :: t) n (by simpa using h)

theorem leadCol_mid : ∀ (vs : List ℤ) (i : ℕ), i + 1 < vs.length →
    (leadCol vs).getD i none = some (vs.getD (i + 1) 0)
  | [], i, h => by simp at h
  | [_], i, h => by simp at h
  | _ :: y :: t, i, h => by
      cases i with
      | zero => rfl
      | succ n =>
          show (leadCol (y :: t)).getD n none = some ((y :: t).getD (n + 1) 0)
          exact leadCol_mid (y :: t) n (by simpa using h)

/-- C6: for every ordered partition, the lead (offset 1) value of the last
record is null, and for every other record it is the designated field's
value of the immediately following record of the same partition. -/
theorem lead_spec (vs : List ℤ) :
    (leadCol vs).length = vs.length ∧
    (∀ i, i + 1 = vs.length → (leadCol vs).getD i none = none) ∧
    (∀ i, i + 1 < vs.length → (leadCol vs).getD i none = some (vs.getD (i + 1) 0)) :=
  ⟨leadCol_length vs, fun i h => leadCol_last vs i h, fun i h => leadCol_mid vs i h⟩

theorem lead_spec_witness :
    (leadCol [(1 : ℤ), 2, 3]).getD 2 none = none ∧
    (leadCol [(1 : ℤ), 2, 3]).getD 0 none = some 2 :=
  ⟨(lead_spec [(1 : ℤ), 2, 3]).2.1 2 (by decide),
   (lead_spec [(1 : ℤ), 2, 3]).2.2 0 (by decide)⟩

/-! ## Orderer: sort directions and null placement -/

/-- Sort direction of an order key. -/
inductive Direction : Type
  | asc : Direction
  | desc : Direction

/-- Null-placement policy of an order key. -/
inductive NullPlacement : Type
  | nullsFirst : NullPlacement
  | nullsLast : NullPlacement

/-- Modelled from the spec: the default null-placement policy of the
Orderer (the repository's query text never writes NULLS FIRST/LAST, so the
policy is not code under src/): nulls last. -/
def defaultNullPlacement : NullPlacement := NullPlacement.nullsLast

/-- Modelled from the spec: the Orderer's single-key comparison.  A sort key
value is an optional integer (null or a value); the result orders the first
argument against the second, honouring the key's direction for two non-null
values and the null-placement policy when exactly one side is null. -/
def compareKey (dir : Direction) (np : NullPlacement) (x y : Option ℤ) : Ordering :=
  match x, y with
  | none, none => Ordering.eq
  | none, some _ =>
      match np with
      | NullPlacement.nullsFirst => Ordering.lt
      | NullPlacement.nullsLast => Ordering.gt
  | some _, none =>
      match np with
      | NullPlacement.nullsFirst => Ordering.gt
      | NullPlacement.nullsLast => Ordering.lt
  | some a, some b =>
      match dir with
      | Direction.asc => compare a b
      | Direction.desc => compare b a

/-- C7: under the default null-placement policy, whenever one compared
sort-key value is null and the other is non-null, the null value sorts
after the non-null one, for both the ascending and the descending
direction. -/
theorem nulls_last_default (dir : Direction) (a : ℤ) :
    compareKey dir defaultNullPlacement none (some a) = Ordering.gt ∧
    compareKey dir defaultNullPlacement (some a) none = Ordering.lt ∧
    defaultNullPlacement = NullPlacement.nullsLast := by
  cases dir <;> exact ⟨rfl, rfl, rfl⟩

/-! ## Data-frame effects of the VIP report's plotting code -/

/-- A data row: an association list from column name to string-rendered cell
value, embedding a pandas DataFrame row; the first binding of a column name
is its current value. -/
abbrev Row : Type := List (String × String)

/-- Column assignment `df[c] = ...`: embedding of the pandas in-place column
assignment.  After the statement, every row binds column `c` to the computed
value, shadowing any previous binding; all other columns are unchanged. -/
def setCol (c : String) (f : Row → String) (df : List Row) : List Row :=
  df.map (fun r => (c, f r) :: r)

/-- Data-frame effect of `plot_vip_customers` (src/analytics_dashboard.py
lines 269-324): the function only reads `df` (it contains no column
assignment), so the data-frame state is unchanged. -/
def plot_vip_customers_df (df : List Row) : List Row := df

/-- Data-frame effect of `plot_vip_spending_pie` (src/analytics_dashboard.py
lines 326-355 and src/08_analytics_dashboard.py lines 311-340): the
statement `df['hover_text'] = ...` assigns a new hover_text column to the
caller's DataFrame in place.  `hover` abstracts the right-hand side (the
concatenation of masked_name, rounded revenue, ride count and distance);
its exact float formatting is presentation text and plays no role in which
columns change. -/
def plot_vip_spending_pie_df (hover : Row → String) (df : List Row) : List Row :=
  setCol "hover_text" hover df

/-- Data-frame state of the VIP DataFrame after Report 3 of
`generate_all_reports`: `df_vip` is passed to `plot_vip_customers`, then to
`plot_vip_spending_pie`. -/
def vip_report_run (hover : Row → String) (df : List Row) : List Row :=
  plot_vip_spending_pie_df hover (plot_vip_customers_df df)

/-- C8 (counterexample): running the VIP report over a one-row DataFrame
changes the row: before the run it has no hover_text field, after the run
it does, so the original input record is not field-for-field identical to
its state before the run. -/
theorem vip_run_mutates_counterexample :
    vip_report_run (fun _ => "h") [[("masked_name", "Alice")]] ≠
      [[("masked_name", "Alice")]] ∧
    (([[("masked_name", "Alice")]] : List Row).headD []).lookup "hover_text" = none ∧
    ((vip_report_run (fun _ => "h")
      [[("masked_name", "Alice")]]).headD []).lookup "hover_text" = some "h" := by
  refine ⟨by decide, by decide, by decide⟩

/-- C8 (amended): the query stages produce new tables and `plot_vip_customers`
leaves the DataFrame unchanged, but `plot_vip_spending_pie` mutates its
input DataFrame by assigning a hover_text column; the mutation is limited to
that one added column: every run keeps the row count and leaves the value of
every other field of every record unchanged. -/
theorem vip_run_effect_spec (hover : Row → String) (df : List Row) :
    plot_vip_customers_df df = df ∧
    (vip_report_run hover df).length = df.length ∧
    (∀ (i : ℕ) (r : Row), df[i]? = some r →
      (vip_report_run hover df)[i]? = some (("hover_text", hover r) :: r)) ∧
    (∀ (i : ℕ) (r : Row), df[i]? = some r →
      ∃ r', (vip_report_run hover df)[i]? = some r' ∧
        r'.lookup "hover_text" = some (hover r) ∧
        ∀ c, c ≠ "hover_text" → r'.lookup c = r.lookup c) := by
  refine ⟨rfl, by simp [vip_report_run, plot_vip_spending_pie_df,
                        plot_vip_customers_df, setCol], ?_, ?_⟩
  · intro i r hr
    simp [vip_report_run, plot_vip_spending_pie_df, plot_vip_customers_df, setCol, hr]
  · intro i r hr
    refine ⟨("hover_text", hover r) :: r, ?_, ?_, ?_⟩
    · simp [vip_report_run, plot_vip_spending_pie_df, plot_vip_customers_df, setCol, hr]
    · simp [List.lookup]
    · intro c hc
      have hb : (c == "hover_text") = false := beq_eq_false_iff_ne.mpr hc
      simp [List.lookup, hb]

theorem vip_run_effect_spec_witness :
    (vip_report_run (fun _ => "h") [[("masked_name", "Alice")]])[0]? =
      some [("hover_text", "h"), ("masked_name", "Alice")] :=
  (vip_run_effect_spec (fun _ => "h") [[("masked_name", "Alice")]]).2.2.1 0
    [("masked_name", "Alice")] rfl

/-! ## Determinism of the ordered pipeline -/

/-- Modelled from the spec: the Orderer's total order on
(original input position, sort key) entries: ascending by sort key, with
ties broken by the original input position (stable sort fallback). -/
def tieBreakLE (a b : ℕ × ℤ) : Prop := a.2 < b.2 ∨ (a.2 = b.2 ∧ a.1 ≤ b.1)

instance : DecidableRel tieBreakLE := fun a b =>
  inferInstanceAs (Decidable (a.2 < b.2 ∨ (a.2 = b.2 ∧ a.1 ≤ b.1)))

/-- Labels of a list in first-seen order, the Aggregator's stable group
iteration order. -/
def firstSeen (l : List String) : List String :=
  l.foldl (fun acc x => if x ∈ acc then acc else acc ++ [x]) []

/-- Modelled from the spec: the Aggregator: group labelled rows
(label, member name, measure) by label, iterating groups in first-seen
order; per group emit the member count, the sum of the measure, and the
first three member names in encounter order (the bounded
representative-example list built by `plot_customer_value_segments`). -/
def groupSummaries (rows : List (String × String × ℤ)) :
    List (String × ℕ × ℤ × List String) :=
  (firstSeen (rows.map (fun r => r.1))).map (fun lab =>
    let g := rows.filter (fun r => r.1 == lab)
    (lab, g.length, (g.map (fun r => r.2.2)).sum, (g.map (fun r => r.2.1)).take 3))

/-- The report pipeline over an ordered entry list: give each entry its
1-based sequential rank, classify the rank into a performance tier, and
fold the labelled rows into group summaries. -/
def runReport (l : List (ℕ × ℤ)) : List (String × ℕ × ℤ × List String) :=
  groupSummaries ((List.range l.length).map (fun i =>
    (performance_tier (i + 1), toString (l.getD i (0, 0)).1, (l.getD i (0, 0)).2)))

/-- C9: the engine is deterministic: any two orderings of the same input
that both satisfy the Orderer's contract (sorted by sort key with ties
broken by original input position) are the same list, so two runs on the
same input produce identical output tables and identical downstream group
summaries. -/
theorem deterministic_order_spec (input l₁ l₂ : List (ℕ × ℤ))
    (h1 : l₁.Perm input) (h2 : l₂.Perm input)
    (s1 : l₁.Sorted tieBreakLE) (s2 : l₂.Sorted tieBreakLE) :
    l₁ = l₂ ∧ runReport l₁ = runReport l₂ := by
  haveI : IsAntisymm (ℕ × ℤ) tieBreakLE := by
    constructor
    intro a b hab hba
    have h2' : a.2 = b.2 := by
      rcases hab with h | ⟨he, _⟩ <;> rcases hba with h' | ⟨he', _⟩ <;> omega
    have h1' : a.1 = b.1 := by
      rcases hab with h | ⟨he, hi⟩ <;> rcases hba with h' | ⟨he', hi'⟩ <;> omega
    exact Prod.ext h1' h2'
  have heq : l₁ = l₂ := List.eq_of_perm_of_sorted (h1.trans h2.symm) s1 s2
  exact ⟨heq, by rw [heq]⟩

theorem deterministic_order_spec_witness :
    [(1, (3 : ℤ)), (0, 5)] = [(1, (3 : ℤ)), (0, 5)] ∧
    runReport [(1, (3 : ℤ)), (0, 5)] = runReport [(1, (3 : ℤ)), (0, 5)] :=
  deterministic_order_spec [(0, (5 : ℤ)), (1, 3)] [(1, (3 : ℤ)), (0, 5)]
    [(1, (3 : ℤ)), (0, 5)] (by decide) (by decide) (by decide) (by decide)

/-! ## Churn-risk query (embedded from the SQL text of
`get_churn_risk_matrix`, src/analytics_dashboard.py lines 856-896) -/

/-- A ride of the fact table, restricted to the fields the churn-risk query
reads: start and end timestamps (epoch seconds) and the fare. -/
structure RideRow : Type where
  start_time : ℤ
  end_time : ℤ
  fare : ℚ
deriving DecidableEq

/-- The query's idle-time expression
`EXTRACT(EPOCH FROM (next_ride_start - current_ride_end)) / 3600`. -/
def idleHoursExpr (next_start cur_end : ℤ) : ℚ :=
  ((next_start - cur_end : ℤ) : ℚ) / 3600

/-- `ROUND(x::numeric, 1)`: round to one decimal place. -/
def round1 (q : ℚ) : ℚ := ((round (q * 10) : ℤ) : ℚ) / 10

/-- The `idle_hours_until_next_ride` column: rounded idle hours when
`next_ride_start IS NOT NULL`, else NULL. -/
def idle_hours_until_next_ride (next_start : Option ℤ) (cur_end : ℤ) : Option ℚ :=
  match next_start with
  | some ns => some (round1 (idleHoursExpr ns cur_end))
  | none => none

/-- The `retention_risk_flag` CASE expression of the churn-risk query. -/
def retention_risk_flag (next_start : Option ℤ) (cur_end : ℤ) : String :=
  match next_start with
  | some ns =>
      if idleHoursExpr ns cur_end > 4 then "CHURN RISK: >4hr idle"
      else if idleHoursExpr ns cur_end > 2 then "WARNING: 2-4hr idle"
      else "Normal: <2hr idle"
  | none => "Last ride (no next ride data)"

/-- The `driver_rides_with_lead` CTE restricted to one driver partition:
each ride paired with the LEAD of `start_time` within the partition. -/
def driver_rides_with_lead (p : List RideRow) : List (RideRow × Option ℤ) :=
  p.zip (leadCol (p.map (fun r => r.start_time)))

/-- The outer SELECT of `get_churn_risk_matrix` over one driver partition:
keep only rows with `next_ride_start IS NOT NULL` and emit the
`idle_hours_until_next_ride` and `retention_risk_flag` columns. -/
def churn_risk_rows (p : List RideRow) : List (Option ℚ × String) :=
  (driver_rides_with_lead p).filterMap (fun rn =>
    if rn.2.isSome then
      some (idle_hours_until_next_ride rn.2 rn.1.end_time,
            retention_risk_flag rn.2 rn.1.end_time)
    else none)

/-- The churn-risk result rows over the selected driver partitions, before
the final ORDER BY / LIMIT 100. -/
def get_churn_risk_matrix_rows (partitions : List (List RideRow)) :
    List (Option ℚ × String) :=
  (partitions.map churn_risk_rows).flatten

/-- C10: the fourth churn-risk classification branch
"Last ride (no next ride data)" is unreachable: every row the query returns
(any ordering of the result, truncated by LIMIT 100) has a non-null
`idle_hours_until_next_ride` and carries one of the three idle-based risk
flags. -/
theorem churn_last_ride_branch_unreachable (partitions : List (List RideRow))
    (out : List (Option ℚ × String))
    (hperm : out.Perm (get_churn_risk_matrix_rows partitions)) :
    ∀ row ∈ out.take 100,
      row.2 ≠ "Last ride (no next ride data)" ∧
      row.1.isSome = true ∧
      (row.2 = "CHURN RISK: >4hr idle" ∨ row.2 = "WARNING: 2-4hr idle" ∨
        row.2 = "Normal: <2hr idle") := by
  intro row hrow
  have hmem : row ∈ out := List.mem_of_mem_take hrow
  have hmem2 : row ∈ get_churn_risk_matrix_rows partitions := hperm.mem_iff.mp hmem
  unfold get_churn_risk_matrix_rows at hmem2
  rw [List.mem_flatten] at hmem2
  obtain ⟨l, hl, hrowl⟩ := hmem2
  rw [List.mem_map] at hl
  obtain ⟨p, _, rfl⟩ := hl
  unfold churn_risk_rows at hrowl
  rw [List.mem_filterMap] at hrowl
  obtain ⟨rn, _, heq⟩ := hrowl
  by_cases hs : rn.2.isSome
  · rw [if_pos hs] at heq
    obtain ⟨ns, hns⟩ := Option.isSome_iff_exists.mp hs
    have hrow_eq : row = (idle_hours_until_next_ride rn.2 rn.1.end_time,
        retention_risk_flag rn.2 rn.1.end_time) := (Option.some.inj heq).symm
    rw [hns] at hrow_eq
    subst hrow_eq
    refine ⟨?_, rfl, ?_⟩
    · show retention_risk_flag (some ns) rn.1.end_time ≠ _
      simp only [retention_risk_flag]
      split_ifs <;> decide
    · show retention_risk_flag (some ns) rn.1.end_time = _ ∨
        retention_risk_flag (some ns) rn.1.end_time = _ ∨
        retention_risk_flag (some ns) rn.1.end_time = _
      simp only [retention_risk_flag]
      split_ifs <;> simp
  · rw [if_neg hs] at heq
    exact absurd heq (by simp)

theorem churn_last_ride_branch_unreachable_witness :
    (idle_hours_until_next_ride (some 7200) 3600,
      retention_risk_flag (some 7200) 3600).2 ≠ "Last ride (no next ride data)" ∧
    (idle_hours_until_next_ride (some 7200) 3600,
      retention_risk_flag (some 7200) 3600).1.isSome = true ∧
    ((idle_hours_until_next_ride (some 7200) 3600,
        retention_risk_flag (some 7200) 3600).2 = "CHURN RISK: >4hr idle" ∨
      (idle_hours_until_next_ride (some 7200) 3600,
        retention_risk_flag (some 7200) 3600).2 = "WARNING: 2-4hr idle" ∨
      (idle_hours_until_next_ride (some 7200) 3600,
        retention_risk_flag (some 7200) 3600).2 = "Normal: <2hr idle") :=
  churn_last_ride_branch_unreachable
    [[⟨0, 3600, 10⟩, ⟨7200, 9000, 12⟩]]
    (get_churn_risk_matrix_rows [[⟨0, 3600, 10⟩, ⟨7200, 9000, 12⟩]])
    (List.Perm.refl _)
    (idle_hours_until_next_ride (some 7200) 3600, retention_risk_flag (some 7200) 3600)
    (by simp [get_churn_risk_matrix_rows, churn_risk_rows, driver_rides_with_lead, leadCol])

end RideShare
